import Mathlib

set_option autoImplicit false

/-! Shallow embedding of `src/color.rs` (the `Color` component of the barium
vector-drawing library) and proofs about it.

Modelling conventions:
* Rust `f32` channel values are modelled as exact rationals (`ℚ`).  None of
  the verified properties depends on rounding behaviour; Rust float division
  by zero (producing inf/NaN, propagated untrapped) is modelled by `ℚ`'s
  total division, which likewise never traps.
* Rust `&str` values are modelled as `List Char`.  All concrete inputs used
  below are ASCII, where Rust's byte indexing coincides with character
  indexing.
* A Rust panic (from `panic!` or an out-of-range string slice) is modelled
  explicitly: `Color.from_hsv` returns `Option` (`none` = panic), and
  `Color.from_hex` returns `Except HexErr Color` where `HexErr.panicked`
  marks a slice panic and `HexErr.parseError` a returned `Err(ParseIntError)`.
-/

/-- Truncation toward zero: the rounding used by Rust float `%` and by
`as u8` casts, on exact values. -/
def qtrunc (x : ℚ) : ℤ :=
  if 0 ≤ x then ⌊x⌋ else ⌈x⌉

/-- Rust `%` on floats: the remainder `x - y * trunc (x / y)`, sign of the
dividend.  `glam::Vec4`'s `Rem` applies this lane-wise. -/
def qrem (x y : ℚ) : ℚ :=
  x - y * (qtrunc (x / y) : ℚ)

/-- `glam::Vec4`: four `f32` lanes `x`, `y`, `z`, `w`. -/
structure Vec4 where
  x : ℚ
  y : ℚ
  z : ℚ
  w : ℚ
  deriving DecidableEq

/-- `Color { inner: Vec4 }` from `src/color.rs`. -/
structure Color where
  inner : Vec4
  deriving DecidableEq

/-- `Color::new(r, g, b, a)`. -/
def Color.new (r g b a : ℚ) : Color :=
  ⟨⟨r, g, b, a⟩⟩

/-- `Color::r()`: the red channel (`inner.x`). -/
def Color.r (c : Color) : ℚ := c.inner.x

/-- `Color::g()`: the green channel (`inner.y`). -/
def Color.g (c : Color) : ℚ := c.inner.y

/-- `Color::b()`: the blue channel (`inner.z`). -/
def Color.b (c : Color) : ℚ := c.inner.z

/-- `Color::a()`: the alpha channel (`inner.w`). -/
def Color.a (c : Color) : ℚ := c.inner.w

/-- `Color::value()`: `(self.r() + self.g() + self.b()) / 3.0`. -/
def Color.value (c : Color) : ℚ :=
  (c.r + c.g + c.b) / 3

/-- `Color::with_r(self, r)`: `*self.r_mut() = r; self`. -/
def Color.with_r (c : Color) (r : ℚ) : Color :=
  { c with inner := { c.inner with x := r } }

/-- `Color::with_g(self, g)`: `*self.g_mut() = g; self`. -/
def Color.with_g (c : Color) (g : ℚ) : Color :=
  { c with inner := { c.inner with y := g } }

/-- `Color::with_b(self, b)`: `*self.b_mut() = b; self`. -/
def Color.with_b (c : Color) (b : ℚ) : Color :=
  { c with inner := { c.inner with z := b } }

/-- `Color::with_a(self, a)`: `*self.a_mut() = a; self`. -/
def Color.with_a (c : Color) (a : ℚ) : Color :=
  { c with inner := { c.inner with w := a } }

/-- `impl Add<Color> for Color`: `glam` adds `Vec4`s lane-wise. -/
def Color.add (c₁ c₂ : Color) : Color :=
  ⟨⟨c₁.inner.x + c₂.inner.x, c₁.inner.y + c₂.inner.y,
    c₁.inner.z + c₂.inner.z, c₁.inner.w + c₂.inner.w⟩⟩

/-- `impl Sub<Color> for Color`: lane-wise subtraction. -/
def Color.sub (c₁ c₂ : Color) : Color :=
  ⟨⟨c₁.inner.x - c₂.inner.x, c₁.inner.y - c₂.inner.y,
    c₁.inner.z - c₂.inner.z, c₁.inner.w - c₂.inner.w⟩⟩

/-- `impl Mul<Color> for Color`: lane-wise multiplication. -/
def Color.mul (c₁ c₂ : Color) : Color :=
  ⟨⟨c₁.inner.x * c₂.inner.x, c₁.inner.y * c₂.inner.y,
    c₁.inner.z * c₂.inner.z, c₁.inner.w * c₂.inner.w⟩⟩

/-- `impl Div<Color> for Color`: lane-wise division, no zero guard. -/
def Color.div (c₁ c₂ : Color) : Color :=
  ⟨⟨c₁.inner.x / c₂.inner.x, c₁.inner.y / c₂.inner.y,
    c₁.inner.z / c₂.inner.z, c₁.inner.w / c₂.inner.w⟩⟩

/-- `impl Rem<Color> for Color`: lane-wise float remainder. -/
def Color.rem (c₁ c₂ : Color) : Color :=
  ⟨⟨qrem c₁.inner.x c₂.inner.x, qrem c₁.inner.y c₂.inner.y,
    qrem c₁.inner.z c₂.inner.z, qrem c₁.inner.w c₂.inner.w⟩⟩

/-- `impl Mul<f32> for Color`: every lane scaled by the scalar. -/
def Color.mul_f32 (c : Color) (s : ℚ) : Color :=
  ⟨⟨c.inner.x * s, c.inner.y * s, c.inner.z * s, c.inner.w * s⟩⟩

/-- `impl Div<f32> for Color`: every lane divided by the scalar. -/
def Color.div_f32 (c : Color) (s : ℚ) : Color :=
  ⟨⟨c.inner.x / s, c.inner.y / s, c.inner.z / s, c.inner.w / s⟩⟩

/-- `impl Rem<f32> for Color`: float remainder of every lane by the scalar. -/
def Color.rem_f32 (c : Color) (s : ℚ) : Color :=
  ⟨⟨qrem c.inner.x s, qrem c.inner.y s, qrem c.inner.z s, qrem c.inner.w s⟩⟩

/-- `impl Mul<Color> for f32`: `rhs.inner * self`, i.e. every lane scaled. -/
def f32_mul_color (s : ℚ) (c : Color) : Color :=
  ⟨⟨c.inner.x * s, c.inner.y * s, c.inner.z * s, c.inner.w * s⟩⟩

/-- `Color::from_hsv(hue, saturation, value)`.  The source starts with
`if hue + saturation + value > 3.0 { panic!(..) }`; the panic is modelled
as `none`.  The Rosetta-code body initialises `r = g = b = 0.0`, overwrites
two of them in the `hp` branch chain, then adds `m` to each and returns
alpha `1.0`. -/
def Color.from_hsv (hue saturation value : ℚ) : Option Color :=
  if 3 < hue + saturation + value then
    none
  else
    let hp := hue / (1 / 6 : ℚ)
    let c := saturation * value
    let x := c * (1 - |qrem hp 2 - 1|)
    let m := value - c
    let rgb : ℚ × ℚ × ℚ :=
      if hp ≤ 1 then (c, x, 0)
      else if hp ≤ 2 then (x, c, 0)
      else if hp ≤ 3 then (0, c, x)
      else if hp ≤ 4 then (0, x, c)
      else if hp ≤ 5 then (x, 0, c)
      else (c, 0, x)
    some (Color.new (rgb.1 + m) (rgb.2.1 + m) (rgb.2.2 + m) 1)

/-- Claim C2: `from_hsv` takes its failure branch (the `panic!`, modelled as
`none`) exactly when `hue + saturation + value > 3.0`, and returns a color
for every combination with sum at most `3.0`. -/
theorem from_hsv_fails_iff_sum_gt_three (h s v : ℚ) :
    Color.from_hsv h s v = none ↔ 3 < h + s + v := by
  unfold Color.from_hsv
  split
  · simpa
  · simp_all

/-- Claim C5: every arithmetic operator on `Color` (add, sub, mul, div, rem,
and the scalar forms) is total — defined at every input, a zero divisor
included — and acts component-wise on each of the four channels. -/
theorem color_arithmetic_componentwise (c₁ c₂ : Color) (s : ℚ) :
    (Color.add c₁ c₂).r = c₁.r + c₂.r ∧ (Color.add c₁ c₂).g = c₁.g + c₂.g ∧
    (Color.add c₁ c₂).b = c₁.b + c₂.b ∧ (Color.add c₁ c₂).a = c₁.a + c₂.a ∧
    (Color.sub c₁ c₂).r = c₁.r - c₂.r ∧ (Color.sub c₁ c₂).g = c₁.g - c₂.g ∧
    (Color.sub c₁ c₂).b = c₁.b - c₂.b ∧ (Color.sub c₁ c₂).a = c₁.a - c₂.a ∧
    (Color.mul c₁ c₂).r = c₁.r * c₂.r ∧ (Color.mul c₁ c₂).g = c₁.g * c₂.g ∧
    (Color.mul c₁ c₂).b = c₁.b * c₂.b ∧ (Color.mul c₁ c₂).a = c₁.a * c₂.a ∧
    (Color.div c₁ c₂).r = c₁.r / c₂.r ∧ (Color.div c₁ c₂).g = c₁.g / c₂.g ∧
    (Color.div c₁ c₂).b = c₁.b / c₂.b ∧ (Color.div c₁ c₂).a = c₁.a / c₂.a ∧
    (Color.rem c₁ c₂).r = qrem c₁.r c₂.r ∧ (Color.rem c₁ c₂).g = qrem c₁.g c₂.g ∧
    (Color.rem c₁ c₂).b = qrem c₁.b c₂.b ∧ (Color.rem c₁ c₂).a = qrem c₁.a c₂.a ∧
    (Color.mul_f32 c₁ s).r = c₁.r * s ∧ (Color.mul_f32 c₁ s).g = c₁.g * s ∧
    (Color.mul_f32 c₁ s).b = c₁.b * s ∧ (Color.mul_f32 c₁ s).a = c₁.a * s ∧
    (Color.div_f32 c₁ s).r = c₁.r / s ∧ (Color.div_f32 c₁ s).g = c₁.g / s ∧
    (Color.div_f32 c₁ s).b = c₁.b / s ∧ (Color.div_f32 c₁ s).a = c₁.a / s ∧
    (Color.rem_f32 c₁ s).r = qrem c₁.r s ∧ (Color.rem_f32 c₁ s).g = qrem c₁.g s ∧
    (Color.rem_f32 c₁ s).b = qrem c₁.b s ∧ (Color.rem_f32 c₁ s).a = qrem c₁.a s ∧
    (f32_mul_color s c₁).r = c₁.r * s ∧ (f32_mul_color s c₁).g = c₁.g * s ∧
    (f32_mul_color s c₁).b = c₁.b * s ∧ (f32_mul_color s c₁).a = c₁.a * s := by
  repeat' constructor

/-- Claim C7: `value()` is the mean of the r, g, b channels and ignores
alpha: overwriting the alpha channel leaves `value()` unchanged. -/
theorem value_eq_mean_rgb (c : Color) (a' : ℚ) :
    Color.value c = (c.r + c.g + c.b) / 3 ∧
    Color.value (c.with_a a') = Color.value c :=
  ⟨rfl, rfl⟩

/-- Claim C8: each `with_*` functional update sets exactly its own channel
and leaves the other three channels unchanged. -/
theorem with_channel_updates_only_target (c : Color) (v : ℚ) :
    (c.with_r v).r = v ∧ (c.with_r v).g = c.g ∧
    (c.with_r v).b = c.b ∧ (c.with_r v).a = c.a ∧
    (c.with_g v).g = v ∧ (c.with_g v).r = c.r ∧
    (c.with_g v).b = c.b ∧ (c.with_g v).a = c.a ∧
    (c.with_b v).b = v ∧ (c.with_b v).r = c.r ∧
    (c.with_b v).g = c.g ∧ (c.with_b v).a = c.a ∧
    (c.with_a v).a = v ∧ (c.with_a v).r = c.r ∧
    (c.with_a v).g = c.g ∧ (c.with_a v).b = c.b := by
  repeat' constructor

/-- Claim C10: every color that `from_hsv` successfully returns has alpha
channel exactly `1.0`. -/
theorem from_hsv_alpha_one (h s v : ℚ) (c : Color)
    (hc : Color.from_hsv h s v = some c) : Color.a c = 1 := by
  unfold Color.from_hsv at hc
  split at hc
  · exact absurd hc (by simp)
  · injection hc with h₂
    rw [← h₂]
    rfl

/-- Witness for C10: `from_hsv 0 0 0` succeeds and the theorem yields alpha
`1` for the returned color. -/
theorem from_hsv_alpha_one_witness : Color.a (Color.new 0 0 0 1) = 1 :=
  from_hsv_alpha_one 0 0 0 (Color.new 0 0 0 1) (by norm_num [Color.from_hsv, qrem, qtrunc])

/-- The sixteen uppercase hex digit characters, the alphabet Rust's `{:02X}`
formatting draws from. -/
def upperHexDigits : List Char :=
  "0123456789ABCDEF".toList

/-- The uppercase hex digit character for a value below 16. -/
def hexDigitChar (n : Nat) : Char :=
  upperHexDigits.getD n '0'

/-- Rust `format!("{:02X}", n)` on a `u8` value: exactly two uppercase hex
digits, the high then the low nibble. -/
def format02X (n : Nat) : List Char :=
  [hexDigitChar (n / 16), hexDigitChar (n % 16)]

/-- Rust `x as u8` on an `f32`: truncation toward zero, saturating into
`0..=255` (exact-value model; the float NaN case cannot arise from `ℚ`). -/
def cast_f32_u8 (x : ℚ) : Nat :=
  (max 0 (min 255 (qtrunc x))).toNat

/-- `Color::as_hex(include_alpha)`: `#` followed by `{:02X}` of each
channel scaled by `255.0` and cast to `u8`, alpha last and only when
requested. -/
def Color.as_hex (c : Color) (include_alpha : Bool) : List Char :=
  if include_alpha then
    '#' :: (format02X (cast_f32_u8 (c.r * 255)) ++ format02X (cast_f32_u8 (c.g * 255)) ++
      format02X (cast_f32_u8 (c.b * 255)) ++ format02X (cast_f32_u8 (c.a * 255)))
  else
    '#' :: (format02X (cast_f32_u8 (c.r * 255)) ++ format02X (cast_f32_u8 (c.g * 255)) ++
      format02X (cast_f32_u8 (c.b * 255)))

/-- Rust `char::to_digit(16)`. -/
def to_digit16 (c : Char) : Option Nat :=
  if '0' ≤ c ∧ c ≤ '9' then some (c.toNat - '0'.toNat)
  else if 'a' ≤ c ∧ c ≤ 'f' then some (c.toNat - 'a'.toNat + 10)
  else if 'A' ≤ c ∧ c ≤ 'F' then some (c.toNat - 'A'.toNat + 10)
  else none

/-- Radix-16 digit accumulation: the digit loop inside
`u8::from_str_radix`, without the overflow check (applied afterwards; the
per-digit checked accumulation rejects exactly when the total overflows,
as the accumulator never decreases). -/
def hexVal : List Char → Nat → Option Nat
  | [], acc => some acc
  | c :: rest, acc =>
    match to_digit16 c with
    | some d => hexVal rest (acc * 16 + d)
    | none => none

/-- Rust `u8::from_str_radix(s, 16)`: an optional leading `+`/`-` sign,
then a nonempty digit run; nonnegative results must fit in `0..=255`, and a
`-` sign only admits the value `0`. -/
def u8_from_str_radix16 (s : List Char) : Option Nat :=
  match s with
  | [] => none
  | c :: rest =>
    if c = '+' then
      match rest with
      | [] => none
      | _ => (hexVal rest 0).bind fun v => if v ≤ 255 then some v else none
    else if c = '-' then
      match rest with
      | [] => none
      | _ => (hexVal rest 0).bind fun v => if v = 0 then some 0 else none
    else
      (hexVal s 0).bind fun v => if v ≤ 255 then some v else none

/-- Outcome tags for `Color::from_hex`: a Rust panic from an out-of-range
string slice, or the `Err(ParseIntError)` the function returns. -/
inductive HexErr where
  | panicked
  | parseError
  deriving DecidableEq

/-- Rust slice `&hex[i..i + 2]`: the two characters starting at `i`, or a
panic when `i + 2` exceeds the length (byte indexing; inputs are ASCII). -/
def slice2 (hex : List Char) (i : Nat) : Except HexErr (List Char) :=
  if i + 2 ≤ hex.length then .ok ((hex.drop i).take 2) else .error .panicked

/-- One `u8::from_str_radix(&hex[i..i + 2], 16)?` step of `from_hex`:
the parsed channel byte, a slice panic, or a propagated parse error. -/
def readChannel (hex : List Char) (i : Nat) : Except HexErr Nat :=
  match slice2 hex i with
  | .error e => .error e
  | .ok s =>
    match u8_from_str_radix16 s with
    | some n => .ok n
    | none => .error .parseError

/-- The `start_index` computed at the top of `Color::from_hex`: `1` after a
leading `#`, `2` after a leading `0x`, else `0`. -/
def hex_start (hex : List Char) : Nat :=
  if hex.head? = some '#' then 1
  else if hex.take 2 = ['0', 'x'] then 2
  else 0

/-- The body of `Color::from_hex` with `start_index` fixed: three channel
reads (each `/ 255.0`), the early `Ok` with alpha `1.0` when
`start_index >= hex.len()`, else a fourth read for alpha. -/
def from_hex_at (hex : List Char) (start : Nat) : Except HexErr Color :=
  match readChannel hex start with
  | .error e => .error e
  | .ok r =>
    match readChannel hex (start + 2) with
    | .error e => .error e
    | .ok g =>
      match readChannel hex (start + 4) with
      | .error e => .error e
      | .ok b =>
        if hex.length ≤ start + 6 then
          .ok (Color.new ((r : ℚ) / 255) ((g : ℚ) / 255) ((b : ℚ) / 255) 1)
        else
          match readChannel hex (start + 6) with
          | .error e => .error e
          | .ok a =>
            .ok (Color.new ((r : ℚ) / 255) ((g : ℚ) / 255) ((b : ℚ) / 255) ((a : ℚ) / 255))

/-- `Color::from_hex`. -/
def Color.from_hex (hex : List Char) : Except HexErr Color :=
  from_hex_at hex (hex_start hex)

/-- Claim C1 (refuting evidence): on the too-short input `"#FFF"` the
source slices `&hex[3..5]` out of a 4-byte string, a panic, not the
recoverable `Err` the claim requires. -/
theorem from_hex_short_input_panics :
    Color.from_hex ['#', 'F', 'F', 'F'] = .error .panicked := by
  rfl

/-- Membership in the uppercase hex alphabet, as a Boolean. -/
def isUpperHexDigit (c : Char) : Bool :=
  upperHexDigits.contains c

/-- Every character `hexDigitChar` produces is an uppercase hex digit. -/
theorem isUpperHexDigit_hexDigitChar (n : Nat) :
    isUpperHexDigit (hexDigitChar n) = true := by
  by_cases h : n < 16
  · interval_cases n <;> decide
  · unfold hexDigitChar
    rw [List.getD_eq_default]
    · decide
    · have hl : upperHexDigits.length = 16 := rfl
      omega

/-- Claim C9: `as_hex` always begins with `'#'` (never `0x`, never bare)
and continues with exactly 6 hex digits without alpha and 8 with alpha,
all drawn from the uppercase alphabet. -/
theorem as_hex_shape (c : Color) (include_alpha : Bool) :
    (c.as_hex include_alpha).head? = some '#' ∧
    (c.as_hex include_alpha).length = (if include_alpha then 9 else 7) ∧
    ((c.as_hex include_alpha).drop 1).all isUpperHexDigit = true := by
  cases include_alpha <;>
    simp [Color.as_hex, format02X, isUpperHexDigit_hexDigitChar]

/-- `hexDigitChar` never produces a sign character. -/
theorem hexDigitChar_not_sign (d : Nat) :
    hexDigitChar d ≠ '+' ∧ hexDigitChar d ≠ '-' := by
  by_cases h : d < 16
  · interval_cases d <;> exact ⟨by decide, by decide⟩
  · unfold hexDigitChar
    rw [List.getD_eq_default _ _ (by have hl : upperHexDigits.length = 16 := rfl; omega)]
    exact ⟨by decide, by decide⟩

/-- `to_digit16` inverts `hexDigitChar` on values below 16. -/
theorem to_digit16_hexDigitChar (d : Nat) (hd : d < 16) :
    to_digit16 (hexDigitChar d) = some d := by
  interval_cases d <;> decide

/-- `u8::from_str_radix` applied to the `{:02X}` form of a byte parses it
back. -/
theorem u8_from_str_radix16_format02X (n : Nat) (hn : n ≤ 255) :
    u8_from_str_radix16 (format02X n) = some n := by
  have h16 : n / 16 < 16 := by omega
  have hm : n % 16 < 16 := Nat.mod_lt _ (by norm_num)
  simp only [format02X, u8_from_str_radix16, hexVal,
    if_neg (hexDigitChar_not_sign (n / 16)).1, if_neg (hexDigitChar_not_sign (n / 16)).2,
    to_digit16_hexDigitChar _ h16, to_digit16_hexDigitChar _ hm]
  rw [show 0 * 16 + n / 16 = n / 16 by omega, show n / 16 * 16 + n % 16 = n by omega]
  simp [hn]

/-- Reading a channel at the index where a formatted byte starts recovers
that byte. -/
theorem readChannel_pair (p : List Char) (n : Nat) (hn : n ≤ 255) (rest : List Char)
    (i : Nat) (hi : i = p.length) :
    readChannel (p ++ (format02X n ++ rest)) i = .ok n := by
  subst hi
  unfold readChannel slice2
  rw [if_pos]
  · rw [List.drop_left, show (2 : Nat) = (format02X n).length from rfl, List.take_left]
    simp [u8_from_str_radix16_format02X n hn]
  · simp [format02X]

/-- `from_hex` on `#` plus three formatted bytes returns those bytes over
255 with alpha one. -/
theorem from_hex_hash6 (n m k : Nat) (hn : n ≤ 255) (hm : m ≤ 255) (hk : k ≤ 255) :
    Color.from_hex ('#' :: (format02X n ++ format02X m ++ format02X k)) =
      .ok (Color.new ((n : ℚ) / 255) ((m : ℚ) / 255) ((k : ℚ) / 255) 1) := by
  have e1 : readChannel ('#' :: (format02X n ++ format02X m ++ format02X k)) 1 = .ok n := by
    have := readChannel_pair ['#'] n hn (format02X m ++ format02X k) 1 rfl
    simpa using this
  have e2 : readChannel ('#' :: (format02X n ++ format02X m ++ format02X k)) 3 = .ok m := by
    have := readChannel_pair ('#' :: format02X n) m hm (format02X k) 3 (by simp [format02X])
    simpa using this
  have e3 : readChannel ('#' :: (format02X n ++ format02X m ++ format02X k)) 5 = .ok k := by
    have := readChannel_pair ('#' :: (format02X n ++ format02X m)) k hk [] 5
      (by simp [format02X])
    simpa using this
  unfold Color.from_hex
  have hs : hex_start ('#' :: (format02X n ++ format02X m ++ format02X k)) = 1 := by
    simp [hex_start]
  rw [hs]
  unfold from_hex_at
  rw [e1, show (1 : Nat) + 2 = 3 from rfl, e2, show (1 : Nat) + 4 = 5 from rfl, e3]
  simp [format02X]

/-- `from_hex` on `#` plus four formatted bytes returns all four bytes. -/
theorem from_hex_hash8 (n m k l : Nat) (hn : n ≤ 255) (hm : m ≤ 255) (hk : k ≤ 255)
    (hl : l ≤ 255) :
    Color.from_hex ('#' :: (format02X n ++ format02X m ++ format02X k ++ format02X l)) =
      .ok (Color.new ((n : ℚ) / 255) ((m : ℚ) / 255) ((k : ℚ) / 255) ((l : ℚ) / 255)) := by
  have e1 : readChannel ('#' :: (format02X n ++ format02X m ++ format02X k ++ format02X l)) 1 =
      .ok n := by
    have := readChannel_pair ['#'] n hn (format02X m ++ format02X k ++ format02X l) 1 rfl
    simpa using this
  have e2 : readChannel ('#' :: (format02X n ++ format02X m ++ format02X k ++ format02X l)) 3 =
      .ok m := by
    have := readChannel_pair ('#' :: format02X n) m hm (format02X k ++ format02X l) 3
      (by simp [format02X])
    simpa using this
  have e3 : readChannel ('#' :: (format02X n ++ format02X m ++ format02X k ++ format02X l)) 5 =
      .ok k := by
    have := readChannel_pair ('#' :: (format02X n ++ format02X m)) k hk (format02X l) 5
      (by simp [format02X])
    simpa using this
  have e4 : readChannel ('#' :: (format02X n ++ format02X m ++ format02X k ++ format02X l)) 7 =
      .ok l := by
    have := readChannel_pair ('#' :: (format02X n ++ format02X m ++ format02X k)) l hl [] 7
      (by simp [format02X])
    simpa using this
  unfold Color.from_hex
  have hs : hex_start ('#' :: (format02X n ++ format02X m ++ format02X k ++ format02X l)) = 1 := by
    simp [hex_start]
  rw [hs]
  unfold from_hex_at
  rw [e1, show (1 : Nat) + 2 = 3 from rfl, e2, show (1 : Nat) + 4 = 5 from rfl, e3,
    show (1 : Nat) + 6 = 7 from rfl]
  simp [format02X] at e4
  simp [format02X, e4]

/-- For a channel in the unit interval, the `* 255.0 as u8` conversion is
the floor of the scaled value, a byte. -/
theorem cast_f32_u8_unit (x : ℚ) (h0 : 0 ≤ x) (h1 : x ≤ 1) :
    cast_f32_u8 (x * 255) ≤ 255 ∧ ((cast_f32_u8 (x * 255) : ℚ)) = ((⌊x * 255⌋ : ℤ) : ℚ) := by
  have hx0 : (0 : ℚ) ≤ x * 255 := by positivity
  have hf0 : (0 : ℤ) ≤ ⌊x * 255⌋ := Int.floor_nonneg.mpr hx0
  have hf255 : ⌊x * 255⌋ ≤ 255 := by
    have hle : x * 255 ≤ 255 := by nlinarith
    calc ⌊x * 255⌋ ≤ ⌊(255 : ℚ)⌋ := Int.floor_le_floor hle
    _ = 255 := by norm_num
  have hcast : cast_f32_u8 (x * 255) = (⌊x * 255⌋).toNat := by
    unfold cast_f32_u8 qtrunc
    rw [if_pos hx0, min_eq_right hf255, max_eq_right hf0]
  refine ⟨by rw [hcast]; omega, ?_⟩
  rw [hcast]
  exact_mod_cast congrArg (fun z : ℤ => (z : ℚ)) (Int.toNat_of_nonneg hf0)

/-- Claim C3: for a color with channels in `[0, 1]`, `from_hex` applied to
`as_hex` succeeds and returns the 8-bit quantisation of the color: each
channel becomes `⌊channel * 255⌋ / 255`, and alpha is `1.0` when it was
not included in the hex string. -/
theorem from_hex_as_hex_roundtrip (c : Color) (ia : Bool)
    (hr0 : 0 ≤ c.r) (hr1 : c.r ≤ 1) (hg0 : 0 ≤ c.g) (hg1 : c.g ≤ 1)
    (hb0 : 0 ≤ c.b) (hb1 : c.b ≤ 1) (ha0 : 0 ≤ c.a) (ha1 : c.a ≤ 1) :
    Color.from_hex (c.as_hex ia) =
      .ok (Color.new (((⌊c.r * 255⌋ : ℤ) : ℚ) / 255) (((⌊c.g * 255⌋ : ℤ) : ℚ) / 255)
        (((⌊c.b * 255⌋ : ℤ) : ℚ) / 255)
        (if ia then ((⌊c.a * 255⌋ : ℤ) : ℚ) / 255 else 1)) := by
  obtain ⟨hr255, hrc⟩ := cast_f32_u8_unit c.r hr0 hr1
  obtain ⟨hg255, hgc⟩ := cast_f32_u8_unit c.g hg0 hg1
  obtain ⟨hb255, hbc⟩ := cast_f32_u8_unit c.b hb0 hb1
  obtain ⟨ha255, hac⟩ := cast_f32_u8_unit c.a ha0 ha1
  cases ia
  · show Color.from_hex (Color.as_hex c false) = _
    rw [show Color.as_hex c false =
      '#' :: (format02X (cast_f32_u8 (c.r * 255)) ++ format02X (cast_f32_u8 (c.g * 255)) ++
        format02X (cast_f32_u8 (c.b * 255))) from rfl]
    rw [from_hex_hash6 _ _ _ hr255 hg255 hb255, hrc, hgc, hbc]
    simp
  · show Color.from_hex (Color.as_hex c true) = _
    rw [show Color.as_hex c true =
      '#' :: (format02X (cast_f32_u8 (c.r * 255)) ++ format02X (cast_f32_u8 (c.g * 255)) ++
        format02X (cast_f32_u8 (c.b * 255)) ++ format02X (cast_f32_u8 (c.a * 255))) from rfl]
    rw [from_hex_hash8 _ _ _ _ hr255 hg255 hb255 ha255, hrc, hgc, hbc, hac]
    simp

/-- Witness for C3: the color `(1/2, 1/5, 1, 1/3)` with alpha included
round-trips to its 8-bit quantisation. -/
theorem from_hex_as_hex_roundtrip_witness :
    Color.from_hex ((Color.new (1/2) (1/5) 1 (1/3)).as_hex true) =
      .ok (Color.new (((⌊(Color.new (1/2) (1/5) 1 (1/3)).r * 255⌋ : ℤ) : ℚ) / 255)
        (((⌊(Color.new (1/2) (1/5) 1 (1/3)).g * 255⌋ : ℤ) : ℚ) / 255)
        (((⌊(Color.new (1/2) (1/5) 1 (1/3)).b * 255⌋ : ℤ) : ℚ) / 255)
        (if true then ((⌊(Color.new (1/2) (1/5) 1 (1/3)).a * 255⌋ : ℤ) : ℚ) / 255 else 1)) :=
  from_hex_as_hex_roundtrip (Color.new (1/2) (1/5) 1 (1/3)) true
    (by norm_num [Color.r, Color.new]) (by norm_num [Color.r, Color.new])
    (by norm_num [Color.g, Color.new]) (by norm_num [Color.g, Color.new])
    (by norm_num [Color.b, Color.new]) (by norm_num [Color.b, Color.new])
    (by norm_num [Color.a, Color.new]) (by norm_num [Color.a, Color.new])
/-- A parsed hex digit value is below 16. -/
theorem to_digit16_lt (c : Char) (d : Nat) (h : to_digit16 c = some d) : d < 16 := by
  unfold to_digit16 at h
  split at h
  · rename_i hc
    have h1' : (48 : Nat) ≤ c.toNat := hc.1
    have h2' : c.toNat ≤ 57 := hc.2
    injection h with h
    rw [show '0'.toNat = 48 from rfl] at h
    omega
  · split at h
    · rename_i hc
      have h1' : (97 : Nat) ≤ c.toNat := hc.1
      have h2' : c.toNat ≤ 102 := hc.2
      injection h with h
      rw [show 'a'.toNat = 97 from rfl] at h
      omega
    · split at h
      · rename_i hc
        have h1' : (65 : Nat) ≤ c.toNat := hc.1
        have h2' : c.toNat ≤ 70 := hc.2
        injection h with h
        rw [show 'A'.toNat = 65 from rfl] at h
        omega
      · exact absurd h (by simp)

/-- `u8::from_str_radix` on two hex digit characters yields the two-digit
value (always a byte). -/
theorem u8_two_digits (c0 c1 : Char) (d0 d1 : Nat)
    (h0 : to_digit16 c0 = some d0) (h1 : to_digit16 c1 = some d1) :
    u8_from_str_radix16 [c0, c1] = some (d0 * 16 + d1) := by
  have hlt0 := to_digit16_lt c0 d0 h0
  have hlt1 := to_digit16_lt c1 d1 h1
  have hp : c0 ≠ '+' := by
    intro he
    rw [he, show to_digit16 '+' = none from by decide] at h0
    exact Option.noConfusion h0
  have hm : c0 ≠ '-' := by
    intro he
    rw [he, show to_digit16 '-' = none from by decide] at h0
    exact Option.noConfusion h0
  simp only [u8_from_str_radix16, if_neg hp, if_neg hm, hexVal, h0, h1]
  rw [show (0 * 16 + d0) * 16 + d1 = d0 * 16 + d1 by omega]
  simp
  omega

/-- Reading a channel is invariant under shifting past a leading chunk. -/
theorem readChannel_append (p ds : List Char) (i : Nat) :
    readChannel (p ++ ds) (p.length + i) = readChannel ds i := by
  unfold readChannel slice2
  by_cases h : i + 2 ≤ ds.length
  · rw [if_pos (by simp only [List.length_append]; omega), if_pos h, List.drop_append]
  · rw [if_neg (by simp only [List.length_append]; omega), if_neg h]

/-- The `from_hex` body only looks at the input from `start_index` on:
prepending a chunk and shifting the start index by its length changes
nothing. -/
theorem from_hex_at_append (p ds : List Char) (k : Nat) :
    from_hex_at (p ++ ds) (p.length + k) = from_hex_at ds k := by
  have hiff : ((p ++ ds).length ≤ p.length + (k + 6)) = (ds.length ≤ k + 6) := by
    rw [eq_iff_iff]
    simp only [List.length_append]
    omega
  unfold from_hex_at
  simp only [show p.length + k + 2 = p.length + (k + 2) by omega,
    show p.length + k + 4 = p.length + (k + 4) by omega,
    show p.length + k + 6 = p.length + (k + 6) by omega,
    readChannel_append, hiff]

/-- An input beginning with two hex digits has no `#`/`0x` marker, so
`start_index` is 0. -/
theorem hex_start_digits (c0 c1 : Char) (rest : List Char)
    (h0 : (to_digit16 c0).isSome = true) (h1 : (to_digit16 c1).isSome = true) :
    hex_start (c0 :: c1 :: rest) = 0 := by
  have hc0 : c0 ≠ '#' := fun he => by rw [he] at h0; exact absurd h0 (by decide)
  have hc1 : c1 ≠ 'x' := fun he => by rw [he] at h1; exact absurd h1 (by decide)
  unfold hex_start
  rw [if_neg (by simp [hc0]), if_neg (by simp [List.take, hc1])]

/-- Claim C4: on a run of 6 or 8 hex digits, `from_hex` accepts the
`#`-form, the `0x`-form and the bare form with identical results, and a
6-digit run yields alpha exactly `1.0`. -/
theorem from_hex_marker_forms_agree (ds : List Char)
    (hdig : ds.all (fun c => (to_digit16 c).isSome) = true)
    (hlen : ds.length = 6 ∨ ds.length = 8) :
    Color.from_hex ('#' :: ds) = Color.from_hex ds ∧
    Color.from_hex ('0' :: 'x' :: ds) = Color.from_hex ds ∧
    (ds.length = 6 → ∀ col, Color.from_hex ds = .ok col → col.a = 1) := by
  rcases ds with _ | ⟨c0, ds⟩
  · simp at hlen
  rcases ds with _ | ⟨c1, rest⟩
  · rcases hlen with h | h <;> simp at h
  simp only [List.all_cons, Bool.and_eq_true] at hdig
  obtain ⟨hdig0, hdig1, hdigr⟩ := hdig
  have hbase : Color.from_hex (c0 :: c1 :: rest) = from_hex_at (c0 :: c1 :: rest) 0 := by
    unfold Color.from_hex
    rw [hex_start_digits c0 c1 rest hdig0 hdig1]
  refine ⟨?_, ?_, ?_⟩
  · unfold Color.from_hex
    rw [show hex_start ('#' :: c0 :: c1 :: rest) = 1 by simp [hex_start]]
    rw [hex_start_digits c0 c1 rest hdig0 hdig1]
    exact from_hex_at_append ['#'] (c0 :: c1 :: rest) 0
  · unfold Color.from_hex
    rw [show hex_start ('0' :: 'x' :: c0 :: c1 :: rest) = 2 by simp [hex_start]]
    rw [hex_start_digits c0 c1 rest hdig0 hdig1]
    exact from_hex_at_append ['0', 'x'] (c0 :: c1 :: rest) 0
  · intro hlen6 col hcol
    have hr4 : rest.length = 4 := by simp at hlen6; omega
    rcases rest with _ | ⟨c2, rest⟩
    · simp at hr4
    rcases rest with _ | ⟨c3, rest⟩
    · simp at hr4
    rcases rest with _ | ⟨c4, rest⟩
    · simp at hr4
    rcases rest with _ | ⟨c5, rest⟩
    · simp at hr4
    rcases rest with _ | ⟨c6, rest⟩
    swap
    · simp at hr4
    simp only [List.all_cons, Bool.and_eq_true] at hdigr
    obtain ⟨hdig2, hdig3, hdig4, hdig5, -⟩ := hdigr
    obtain ⟨d0, hd0⟩ := Option.isSome_iff_exists.mp hdig0
    obtain ⟨d1, hd1⟩ := Option.isSome_iff_exists.mp hdig1
    obtain ⟨d2, hd2⟩ := Option.isSome_iff_exists.mp hdig2
    obtain ⟨d3, hd3⟩ := Option.isSome_iff_exists.mp hdig3
    obtain ⟨d4, hd4⟩ := Option.isSome_iff_exists.mp hdig4
    obtain ⟨d5, hd5⟩ := Option.isSome_iff_exists.mp hdig5
    have r0 : readChannel [c0, c1, c2, c3, c4, c5] 0 = .ok (d0 * 16 + d1) := by
      unfold readChannel slice2
      simp [u8_two_digits c0 c1 d0 d1 hd0 hd1]
    have r2 : readChannel [c0, c1, c2, c3, c4, c5] 2 = .ok (d2 * 16 + d3) := by
      unfold readChannel slice2
      simp [u8_two_digits c2 c3 d2 d3 hd2 hd3]
    have r4 : readChannel [c0, c1, c2, c3, c4, c5] 4 = .ok (d4 * 16 + d5) := by
      unfold readChannel slice2
      simp [u8_two_digits c4 c5 d4 d5 hd4 hd5]
    rw [hbase] at hcol
    unfold from_hex_at at hcol
    simp only [Nat.zero_add, r0, r2, r4] at hcol
    rw [if_pos (by simp)] at hcol
    injection hcol with hcol
    rw [← hcol]
    rfl

/-- Witness for C4: the digit run `123456` parses identically in all three
forms and comes out fully opaque. -/
theorem from_hex_marker_forms_agree_witness :
    Color.from_hex ['#', '1', '2', '3', '4', '5', '6'] =
      Color.from_hex ['1', '2', '3', '4', '5', '6'] ∧
    Color.from_hex ['0', 'x', '1', '2', '3', '4', '5', '6'] =
      Color.from_hex ['1', '2', '3', '4', '5', '6'] ∧
    (['1', '2', '3', '4', '5', '6'].length = 6 →
      ∀ col, Color.from_hex ['1', '2', '3', '4', '5', '6'] = .ok col → col.a = 1) :=
  from_hex_marker_forms_agree ['1', '2', '3', '4', '5', '6'] (by decide) (by decide)

/-- The lowercase hex letter digits. -/
def hexLower : List Char := "abcdef".toList

/-- The uppercase hex letter digits. -/
def hexUpper : List Char := "ABCDEF".toList

/-- The twelve ordered pairs of a hex letter digit and its other-case form. -/
def hexCasePairs : List (Char × Char) :=
  hexLower.zip hexUpper ++ hexUpper.zip hexLower

/-- Two characters are case variants: equal, or a hex letter digit and the
same letter in the other case. -/
def caseVar (c c' : Char) : Bool :=
  c' == c || hexCasePairs.contains (c, c')

/-- Pointwise case-variant lists: same length, characters case variants. -/
def caseVars : List Char → List Char → Bool
  | [], [] => true
  | c :: s, c' :: s' => caseVar c c' && caseVars s s'
  | _, _ => false

/-- Case variance unfolded to a disjunction. -/
theorem caseVar_elim (c c' : Char) (h : caseVar c c' = true) :
    c' = c ∨ (c, c') ∈ hexCasePairs := by
  unfold caseVar at h
  rcases (Bool.or_eq_true _ _).mp h with h | h
  · exact Or.inl (by simpa using h)
  · exact Or.inr (List.mem_of_elem_eq_true h)

/-- Splitting a cons/cons case-variance fact. -/
theorem caseVars_cons_elim {c c' : Char} {t t' : List Char}
    (h : caseVars (c :: t) (c' :: t') = true) :
    caseVar c c' = true ∧ caseVars t t' = true := by
  simpa [caseVars] using h

/-- Case variants carry the same hex digit value. -/
theorem caseVar_to_digit (c c' : Char) (h : caseVar c c' = true) :
    to_digit16 c' = to_digit16 c := by
  rcases caseVar_elim c c' h with rfl | hm
  · rfl
  · have hall : ∀ p ∈ hexCasePairs, to_digit16 p.2 = to_digit16 p.1 := by decide
    exact hall (c, c') hm

/-- For a character `t` that is not a hex letter, being equal to `t` is
invariant under case variance. -/
theorem caseVar_eq_of_mem (c c' : Char) (h : caseVar c c' = true) (t : Char)
    (ht : hexCasePairs.all (fun p => !(p.1 == t) && !(p.2 == t)) = true) :
    (c = t) = (c' = t) := by
  rcases caseVar_elim c c' h with rfl | hm
  · rfl
  · have hp := List.all_eq_true.mp ht _ hm
    simp only [Bool.and_eq_true, Bool.not_eq_eq_eq_not, Bool.not_true, beq_eq_false_iff_ne,
      ne_eq] at hp
    rw [eq_iff_iff]
    exact iff_of_false hp.1 hp.2

/-- Case-variant lists have equal length. -/
theorem caseVars_length (s s' : List Char) (h : caseVars s s' = true) :
    s.length = s'.length := by
  induction s generalizing s' with
  | nil =>
    rcases s' with _ | ⟨c', t'⟩
    · rfl
    · exact absurd h (by simp [caseVars])
  | cons c t ih =>
    rcases s' with _ | ⟨c', t'⟩
    · exact absurd h (by simp [caseVars])
    · obtain ⟨-, ht⟩ := caseVars_cons_elim h
      simp [ih t' ht]

/-- Case variance is preserved by `drop`. -/
theorem caseVars_drop (n : Nat) (s s' : List Char) (h : caseVars s s' = true) :
    caseVars (s.drop n) (s'.drop n) = true := by
  induction n generalizing s s' with
  | zero => simpa using h
  | succ k ih =>
    rcases s with _ | ⟨c, t⟩
    · rcases s' with _ | ⟨c', t'⟩
      · simpa using h
      · exact absurd h (by simp [caseVars])
    · rcases s' with _ | ⟨c', t'⟩
      · exact absurd h (by simp [caseVars])
      · obtain ⟨-, ht⟩ := caseVars_cons_elim h
        simpa using ih t t' ht

/-- Case variance is preserved by `take`. -/
theorem caseVars_take (n : Nat) (s s' : List Char) (h : caseVars s s' = true) :
    caseVars (s.take n) (s'.take n) = true := by
  induction n generalizing s s' with
  | zero => rfl
  | succ k ih =>
    rcases s with _ | ⟨c, t⟩
    · rcases s' with _ | ⟨c', t'⟩
      · rfl
      · exact absurd h (by simp [caseVars])
    · rcases s' with _ | ⟨c', t'⟩
      · exact absurd h (by simp [caseVars])
      · obtain ⟨hc, ht⟩ := caseVars_cons_elim h
        simp only [List.take_succ_cons, caseVars, Bool.and_eq_true]
        exact ⟨hc, ih t t' ht⟩

/-- The digit loop is invariant under case variance. -/
theorem hexVal_caseVars (s s' : List Char) (acc : Nat) (h : caseVars s s' = true) :
    hexVal s' acc = hexVal s acc := by
  induction s generalizing s' acc with
  | nil =>
    rcases s' with _ | ⟨c', t'⟩
    · rfl
    · exact absurd h (by simp [caseVars])
  | cons c t ih =>
    rcases s' with _ | ⟨c', t'⟩
    · exact absurd h (by simp [caseVars])
    · obtain ⟨hc, ht⟩ := caseVars_cons_elim h
      unfold hexVal
      rw [caseVar_to_digit c c' hc]
      cases hto : to_digit16 c with
      | none => rfl
      | some d => exact ih t' _ ht

/-- `u8::from_str_radix` is invariant under case variance. -/
theorem u8_from_str_radix16_caseVars (s s' : List Char) (h : caseVars s s' = true) :
    u8_from_str_radix16 s' = u8_from_str_radix16 s := by
  rcases s with _ | ⟨c, t⟩
  · rcases s' with _ | ⟨c', t'⟩
    · rfl
    · exact absurd h (by simp [caseVars])
  · rcases s' with _ | ⟨c', t'⟩
    · exact absurd h (by simp [caseVars])
    · obtain ⟨hc, ht⟩ := caseVars_cons_elim h
      have hplus := caseVar_eq_of_mem c c' hc '+' (by decide)
      have hminus := caseVar_eq_of_mem c c' hc '-' (by decide)
      unfold u8_from_str_radix16
      dsimp only
      by_cases hp : c = '+'
      · rw [if_pos hp, if_pos (Eq.mp hplus hp)]
        rcases t with _ | ⟨a, tt⟩
        · rcases t' with _ | ⟨a', tt'⟩
          · rfl
          · exact absurd ht (by simp [caseVars])
        · rcases t' with _ | ⟨a', tt'⟩
          · exact absurd ht (by simp [caseVars])
          · rw [hexVal_caseVars _ _ 0 ht]
      · rw [if_neg hp, if_neg (fun he => hp (Eq.mpr hplus he))]
        by_cases hm : c = '-'
        · rw [if_pos hm, if_pos (Eq.mp hminus hm)]
          rcases t with _ | ⟨a, tt⟩
          · rcases t' with _ | ⟨a', tt'⟩
            · rfl
            · exact absurd ht (by simp [caseVars])
          · rcases t' with _ | ⟨a', tt'⟩
            · exact absurd ht (by simp [caseVars])
            · rw [hexVal_caseVars _ _ 0 ht]
        · rw [if_neg hm, if_neg (fun he => hm (Eq.mpr hminus he))]
          rw [hexVal_caseVars (c :: t) (c' :: t') 0 h]

/-- Channel reads are invariant under case variance. -/
theorem readChannel_caseVars (s s' : List Char) (i : Nat) (h : caseVars s s' = true) :
    readChannel s' i = readChannel s i := by
  have hlen := caseVars_length s s' h
  unfold readChannel slice2
  rw [← hlen]
  by_cases hc : i + 2 ≤ s.length
  · rw [if_pos hc, if_pos hc]
    dsimp only
    rw [u8_from_str_radix16_caseVars _ _ (caseVars_take 2 _ _ (caseVars_drop i s s' h))]
  · rw [if_neg hc, if_neg hc]

/-- The `start_index` computation is invariant under case variance: `#`,
`0` and `x` are not hex letters, so the marker is unchanged. -/
theorem hex_start_caseVars (s s' : List Char) (h : caseVars s s' = true) :
    hex_start s' = hex_start s := by
  rcases s with _ | ⟨c, t⟩
  · rcases s' with _ | ⟨c', t'⟩
    · rfl
    · exact absurd h (by simp [caseVars])
  · rcases s' with _ | ⟨c', t'⟩
    · exact absurd h (by simp [caseVars])
    · obtain ⟨hc, ht⟩ := caseVars_cons_elim h
      have hhash := caseVar_eq_of_mem c c' hc '#' (by decide)
      unfold hex_start
      simp only [List.head?_cons, Option.some.injEq]
      by_cases hch : c = '#'
      · rw [if_pos hch, if_pos (Eq.mp hhash hch)]
      · rw [if_neg hch, if_neg (fun he => hch (Eq.mpr hhash he))]
        rcases t with _ | ⟨a, tt⟩
        · rcases t' with _ | ⟨a', tt'⟩
          · simp
          · exact absurd ht (by simp [caseVars])
        · rcases t' with _ | ⟨a', tt'⟩
          · exact absurd ht (by simp [caseVars])
          · obtain ⟨ha, -⟩ := caseVars_cons_elim ht
            have hzero := caseVar_eq_of_mem c c' hc '0' (by decide)
            have hx := caseVar_eq_of_mem a a' ha 'x' (by decide)
            rw [show (c :: a :: tt).take 2 = [c, a] from rfl,
              show (c' :: a' :: tt').take 2 = [c', a'] from rfl]
            have hcond : ([c, a] = ['0', 'x']) = ([c', a'] = ['0', 'x']) := by
              rw [eq_iff_iff]
              simp only [List.cons.injEq, and_true]
              exact and_congr (iff_of_eq hzero) (iff_of_eq hx)
            simp only [hcond]

/-- The `from_hex` body is invariant under case variance. -/
theorem from_hex_at_caseVars (s s' : List Char) (k : Nat) (h : caseVars s s' = true) :
    from_hex_at s' k = from_hex_at s k := by
  unfold from_hex_at
  simp only [readChannel_caseVars s s' _ h, caseVars_length s s' h]

/-- Claim C6: `from_hex` is case-insensitive: two inputs that differ only
in the case of hex letter digits parse to the same result. -/
theorem from_hex_case_insensitive (s s' : List Char) (h : caseVars s s' = true) :
    Color.from_hex s' = Color.from_hex s := by
  unfold Color.from_hex
  rw [hex_start_caseVars s s' h, from_hex_at_caseVars s s' _ h]

/-- Witness for C6: mixed-case variants of `#aBcDeF` parse identically. -/
theorem from_hex_case_insensitive_witness :
    Color.from_hex ['#', 'A', 'b', 'C', 'd', 'E', 'f'] =
      Color.from_hex ['#', 'a', 'B', 'c', 'D', 'e', 'F'] :=
  from_hex_case_insensitive ['#', 'a', 'B', 'c', 'D', 'e', 'F']
    ['#', 'A', 'b', 'C', 'd', 'E', 'f'] (by decide)
